import Mathlib

/-!
Verification of the directory-tree renderer in `pps.py`.

The program walks a directory tree and renders it as a flat list of display
lines (`print_directory_tree`), then optionally writes the lines joined by
newlines to a text file (`save_to_text_file`).  We embed the filesystem as an
inductive tree (`FSTree`): a snapshot of the directory structure as seen by
`os.listdir` / `os.path.isfile` / `os.path.isdir`, and translate the two
functions over that snapshot.  Strings are Lean `String`s ordered by the core
codepoint-lexicographic order, matching Python's `str` comparison used by
`sorted`.
-/

namespace Pps

/-- Core string comparison pinned to the codepoint-lexicographic order
(`String.instLT`, i.e. `List.lt` on the character data), which is how Python
compares `str` values in `sorted`. -/
abbrev strLt (a b : String) : Prop := @LT.lt String String.instLT a b

/-- A filesystem entry as consumed by the renderer: only the name and the
file-vs-directory kind (plus, for directories, the children) are used. -/
inductive FSTree where
  | file (name : String)
  | dir (name : String) (children : List FSTree)

/-- Name of an entry (the `os.listdir` entry string). -/
def FSTree.name : FSTree → String
  | .file n => n
  | .dir n _ => n

/-- Children of an entry; a file has none. -/
def FSTree.children : FSTree → List FSTree
  | .file _ => []
  | .dir _ cs => cs

/-- Test modelling `os.path.isdir(os.path.join(directory, entry))`. -/
def FSTree.isDir : FSTree → Bool
  | .file _ => false
  | .dir _ _ => true

/-- Test modelling `os.path.isfile(os.path.join(directory, entry))`. -/
def FSTree.isFile (t : FSTree) : Bool := !t.isDir

/-- Ordering of entries by name, as used by `sorted(os.listdir(directory))`:
Python sorts the entry name strings. -/
def nameLe (a b : FSTree) : Prop := String.le a.name b.name

instance : DecidableRel nameLe := fun a b => String.decLE a.name b.name

instance : IsTotal FSTree nameLe := by
  constructor
  intro a b
  rcases Decidable.em (String.le b.name a.name) with h | h
  · right
    exact h
  · left
    have hab : strLt a.name b.name := not_not.mp h
    intro hba
    exact String.lt_irrefl _ (String.lt_trans hab hba)

instance : IsTrans FSTree nameLe := by
  constructor
  intro a b c h1 h2
  intro h3
  rcases Decidable.em (String.le c.name b.name) with h4 | h4
  · have e : b.name = c.name := String.lt_antisymm h4 h2
    rw [← e] at h3
    exact h1 h3
  · have h5 : strLt b.name c.name := not_not.mp h4
    exact h1 (String.lt_trans h5 h3)

/-- Sorting a directory listing, modelling `sorted(os.listdir(directory))`.
Python's `sorted` is a stable sort by `<` on names; a stable sort is
extensionally unique, so insertion sort gives the same list. -/
def sortedEntries (entries : List FSTree) : List FSTree :=
  List.insertionSort nameLe entries

mutual

/-- Size measure of an entry, used for termination of the walk. -/
def FSTree.size : FSTree → Nat
  | .file _ => 1
  | .dir _ cs => 1 + FSTree.sizeList cs

/-- Size measure of a listing. -/
def FSTree.sizeList : List FSTree → Nat
  | [] => 0
  | t :: ts => t.size + FSTree.sizeList ts

end

theorem FSTree.size_pos (t : FSTree) : 0 < t.size := by
  cases t <;> simp [FSTree.size]

theorem FSTree.sizeList_children_lt (t : FSTree) :
    FSTree.sizeList t.children < t.size := by
  cases t <;> simp [FSTree.size, FSTree.children, FSTree.sizeList]

theorem FSTree.sizeList_perm {l l' : List FSTree} (h : l.Perm l') :
    FSTree.sizeList l = FSTree.sizeList l' := by
  induction h with
  | nil => rfl
  | cons x _ ih => simp [FSTree.sizeList, ih]
  | swap x y l => simp [FSTree.sizeList]; omega
  | trans _ _ ih1 ih2 => omega

theorem FSTree.sizeList_le_of_sublist {l l' : List FSTree} (h : l.Sublist l') :
    FSTree.sizeList l ≤ FSTree.sizeList l' := by
  induction h with
  | slnil => exact Nat.le_refl _
  | cons a _ ih => simp only [FSTree.sizeList]; omega
  | cons₂ a _ ih => simp only [FSTree.sizeList]; omega

theorem FSTree.sizeList_sortedEntries (entries : List FSTree) :
    FSTree.sizeList (sortedEntries entries) = FSTree.sizeList entries :=
  FSTree.sizeList_perm (List.perm_insertionSort nameLe entries)

theorem FSTree.dec_dirs (entries : List FSTree) :
    2 * FSTree.sizeList ((sortedEntries entries).filter FSTree.isDir) <
      2 * FSTree.sizeList entries + 1 := by
  have h1 : FSTree.sizeList ((sortedEntries entries).filter FSTree.isDir) ≤
      FSTree.sizeList (sortedEntries entries) :=
    FSTree.sizeList_le_of_sublist (List.filter_sublist _)
  have h2 := FSTree.sizeList_sortedEntries entries
  omega

theorem FSTree.dec_child (d : FSTree) (rest : List FSTree) :
    2 * FSTree.sizeList d.children + 1 < 2 * FSTree.sizeList (d :: rest) := by
  have h1 := FSTree.sizeList_children_lt d
  simp only [FSTree.sizeList]
  omega

theorem FSTree.dec_rest (d : FSTree) (rest : List FSTree) :
    2 * FSTree.sizeList rest < 2 * FSTree.sizeList (d :: rest) := by
  have h1 := FSTree.size_pos d
  simp only [FSTree.sizeList]
  omega

/-- Rendering of the file lines of one directory level, modelling the second
loop of `print_directory_tree` (lines 27-31 of pps.py):
`is_last = i == len(files) - 1` holds exactly when no further file follows,
i.e. when the remaining list is empty. -/
def renderFiles : List FSTree → String → List String
  | [], _ => []
  | f :: rest, pre =>
    (pre ++ (if rest.isEmpty then "`-- " else "|-- ") ++ f.name) :: renderFiles rest pre

mutual

/-- Embedding of `print_directory_tree(directory, prefix)` (pps.py lines
6-33) over a snapshot of the directory's listing: sort the entries, partition
into files and subdirectories, render all subdirectory blocks, then all file
lines. -/
def print_directory_tree (entries : List FSTree) (pre : String) : List String :=
  renderDirs ((sortedEntries entries).filter FSTree.isDir) pre
    ++ renderFiles ((sortedEntries entries).filter FSTree.isFile) pre
termination_by 2 * FSTree.sizeList entries + 1
decreasing_by
  exact FSTree.dec_dirs entries

/-- The subdirectory loop of `print_directory_tree` (pps.py lines 19-25):
emit the heading line with glyph chosen by `is_last = i == len(dirs) - 1`
(equivalently: the remaining subdirectory list is empty), then recurse with
the prefix extended by four spaces or a bar segment. -/
def renderDirs : List FSTree → String → List String
  | [], _ => []
  | d :: rest, pre =>
    (pre ++ (if rest.isEmpty then "`-- " else "|-- ") ++ d.name ++ "/")
      :: (print_directory_tree d.children (pre ++ (if rest.isEmpty then "    " else "|   "))
        ++ renderDirs rest pre)
termination_by l _ => 2 * FSTree.sizeList l
decreasing_by
  · apply FSTree.dec_child
  · apply FSTree.dec_rest

end

theorem print_directory_tree_def (entries : List FSTree) (pre : String) :
    print_directory_tree entries pre =
      renderDirs ((sortedEntries entries).filter FSTree.isDir) pre
        ++ renderFiles ((sortedEntries entries).filter FSTree.isFile) pre := by
  rw [print_directory_tree]

theorem renderDirs_nil (pre : String) : renderDirs [] pre = [] := by
  rw [renderDirs]

theorem renderDirs_cons (d : FSTree) (rest : List FSTree) (pre : String) :
    renderDirs (d :: rest) pre =
      (pre ++ (if rest.isEmpty then "`-- " else "|-- ") ++ d.name ++ "/")
        :: (print_directory_tree d.children (pre ++ (if rest.isEmpty then "    " else "|   "))
          ++ renderDirs rest pre) := by
  rw [renderDirs]

/-- Simultaneous induction principle following the recursion structure of
`print_directory_tree` and `renderDirs`. -/
theorem render_rec (P : List FSTree → Prop) (Q : List FSTree → Prop)
    (hP : ∀ entries, Q ((sortedEntries entries).filter FSTree.isDir) → P entries)
    (hQ0 : Q [])
    (hQ1 : ∀ d rest, P d.children → Q rest → Q (d :: rest)) :
    (∀ entries, P entries) ∧ (∀ l, Q l) := by
  have key : ∀ n : Nat, (∀ entries, FSTree.sizeList entries ≤ n → P entries) ∧
      (∀ l, FSTree.sizeList l ≤ n → Q l) := by
    intro n
    induction n with
    | zero =>
      have hQz : ∀ l : List FSTree, FSTree.sizeList l ≤ 0 → Q l := by
        intro l hl
        cases l with
        | nil => exact hQ0
        | cons t ts =>
          exfalso
          have h1 := FSTree.size_pos t
          simp only [FSTree.sizeList] at hl
          omega
      constructor
      · intro entries hle
        apply hP
        apply hQz
        have h1 : FSTree.sizeList ((sortedEntries entries).filter FSTree.isDir) ≤
            FSTree.sizeList (sortedEntries entries) :=
          FSTree.sizeList_le_of_sublist (List.filter_sublist _)
        have h2 := FSTree.sizeList_sortedEntries entries
        omega
      · exact hQz
    | succ n ih =>
      have hQs : ∀ l : List FSTree, FSTree.sizeList l ≤ n + 1 → Q l := by
        intro l
        induction l with
        | nil => intro _; exact hQ0
        | cons d rest ihrest =>
          intro hle
          simp only [FSTree.sizeList] at hle
          have hch := FSTree.sizeList_children_lt d
          have hpos := FSTree.size_pos d
          apply hQ1
          · exact ih.1 d.children (by omega)
          · exact ihrest (by omega)
      constructor
      · intro entries hle
        apply hP
        apply hQs
        have h1 : FSTree.sizeList ((sortedEntries entries).filter FSTree.isDir) ≤
            FSTree.sizeList (sortedEntries entries) :=
          FSTree.sizeList_le_of_sublist (List.filter_sublist _)
        have h2 := FSTree.sizeList_sortedEntries entries
        omega
      · exact hQs
  constructor
  · intro entries
    exact (key (FSTree.sizeList entries)).1 entries (Nat.le_refl _)
  · intro l
    exact (key (FSTree.sizeList l)).2 l (Nat.le_refl _)

/-- Instrumented copy of the file loop: each produced line paired with the
entry it was produced from. -/
def renderFilesTagged : List FSTree → String → List (String × FSTree)
  | [], _ => []
  | f :: rest, pre =>
    ((pre ++ (if rest.isEmpty then "`-- " else "|-- ") ++ f.name), f)
      :: renderFilesTagged rest pre

mutual

/-- Instrumented copy of `print_directory_tree`: identical recursion and line
construction, with each line paired with the entry it renders. -/
def renderTagged (entries : List FSTree) (pre : String) : List (String × FSTree) :=
  renderDirsTagged ((sortedEntries entries).filter FSTree.isDir) pre
    ++ renderFilesTagged ((sortedEntries entries).filter FSTree.isFile) pre
termination_by 2 * FSTree.sizeList entries + 1
decreasing_by
  exact FSTree.dec_dirs entries

/-- Instrumented copy of the subdirectory loop `renderDirs`. -/
def renderDirsTagged : List FSTree → String → List (String × FSTree)
  | [], _ => []
  | d :: rest, pre =>
    ((pre ++ (if rest.isEmpty then "`-- " else "|-- ") ++ d.name ++ "/"), d)
      :: (renderTagged d.children (pre ++ (if rest.isEmpty then "    " else "|   "))
        ++ renderDirsTagged rest pre)
termination_by l _ => 2 * FSTree.sizeList l
decreasing_by
  · apply FSTree.dec_child
  · apply FSTree.dec_rest

end

theorem renderTagged_def (entries : List FSTree) (pre : String) :
    renderTagged entries pre =
      renderDirsTagged ((sortedEntries entries).filter FSTree.isDir) pre
        ++ renderFilesTagged ((sortedEntries entries).filter FSTree.isFile) pre := by
  rw [renderTagged]

theorem renderDirsTagged_nil (pre : String) : renderDirsTagged [] pre = [] := by
  rw [renderDirsTagged]

theorem renderDirsTagged_cons (d : FSTree) (rest : List FSTree) (pre : String) :
    renderDirsTagged (d :: rest) pre =
      ((pre ++ (if rest.isEmpty then "`-- " else "|-- ") ++ d.name ++ "/"), d)
        :: (renderTagged d.children (pre ++ (if rest.isEmpty then "    " else "|   "))
          ++ renderDirsTagged rest pre) := by
  rw [renderDirsTagged]

theorem renderFilesTagged_fst (l : List FSTree) (pre : String) :
    (renderFilesTagged l pre).map Prod.fst = renderFiles l pre := by
  induction l generalizing pre with
  | nil => rfl
  | cons f rest ih => simp [renderFilesTagged, renderFiles, ih]

theorem renderTagged_fst :
    (∀ entries : List FSTree, ∀ pre,
      (renderTagged entries pre).map Prod.fst = print_directory_tree entries pre) ∧
    (∀ l : List FSTree, ∀ pre,
      (renderDirsTagged l pre).map Prod.fst = renderDirs l pre) := by
  refine render_rec
    (fun entries => ∀ pre, (renderTagged entries pre).map Prod.fst
      = print_directory_tree entries pre)
    (fun l => ∀ pre, (renderDirsTagged l pre).map Prod.fst = renderDirs l pre)
    ?_ ?_ ?_
  · intro entries hQ pre
    rw [renderTagged_def, print_directory_tree_def, List.map_append, hQ pre,
      renderFilesTagged_fst]
  · intro pre
    rw [renderDirsTagged_nil, renderDirs_nil]
    rfl
  · intro d rest hPd hQrest pre
    rw [renderDirsTagged_cons, renderDirs_cons]
    simp only [List.map_cons, List.map_append]
    rw [hPd _, hQrest pre]

mutual

/-- An entry together with all of its transitive descendants, root first. -/
def FSTree.selfDesc : FSTree → List FSTree
  | .file n => [FSTree.file n]
  | .dir n cs => FSTree.dir n cs :: descendantsL cs

/-- All direct and transitive children of a directory whose listing is `l`. -/
def descendantsL : List FSTree → List FSTree
  | [] => []
  | t :: ts => FSTree.selfDesc t ++ descendantsL ts

end

theorem FSTree.selfDesc_eq (t : FSTree) :
    t.selfDesc = t :: descendantsL t.children := by
  cases t <;> rfl

theorem descendantsL_append (a b : List FSTree) :
    descendantsL (a ++ b) = descendantsL a ++ descendantsL b := by
  induction a with
  | nil => rfl
  | cons t ts ih => simp [descendantsL, ih]

theorem descendantsL_eq_flatten (l : List FSTree) :
    descendantsL l = (l.map FSTree.selfDesc).flatten := by
  induction l with
  | nil => rfl
  | cons t ts ih => simp [descendantsL, ih]

theorem descendantsL_perm {l l' : List FSTree} (h : l.Perm l') :
    (descendantsL l).Perm (descendantsL l') := by
  rw [descendantsL_eq_flatten, descendantsL_eq_flatten]
  exact (h.map FSTree.selfDesc).flatten

theorem descendantsL_of_files {l : List FSTree}
    (h : ∀ t ∈ l, FSTree.isDir t = false) : descendantsL l = l := by
  induction l with
  | nil => rfl
  | cons t ts ih =>
    have ht := h t (List.mem_cons_self t ts)
    have hsd : t.selfDesc = [t] := by
      cases t with
      | file n => rfl
      | dir n cs => simp [FSTree.isDir] at ht
    simp only [descendantsL, hsd, List.singleton_append]
    rw [ih (fun u hu => h u (List.mem_cons_of_mem t hu))]

theorem renderFilesTagged_snd (l : List FSTree) (pre : String) :
    (renderFilesTagged l pre).map Prod.snd = l := by
  induction l generalizing pre with
  | nil => rfl
  | cons f rest ih => simp [renderFilesTagged, ih]

theorem renderTagged_snd_perm :
    (∀ entries : List FSTree, ∀ pre,
      ((renderTagged entries pre).map Prod.snd).Perm (descendantsL entries)) ∧
    (∀ l : List FSTree, ∀ pre,
      ((renderDirsTagged l pre).map Prod.snd).Perm (descendantsL l)) := by
  refine render_rec
    (fun entries => ∀ pre,
      ((renderTagged entries pre).map Prod.snd).Perm (descendantsL entries))
    (fun l => ∀ pre,
      ((renderDirsTagged l pre).map Prod.snd).Perm (descendantsL l))
    ?_ ?_ ?_
  · intro entries hQ pre
    rw [renderTagged_def, List.map_append, renderFilesTagged_snd]
    have hfiles : descendantsL ((sortedEntries entries).filter FSTree.isFile) =
        (sortedEntries entries).filter FSTree.isFile := by
      apply descendantsL_of_files
      intro t ht
      have := (List.mem_filter.mp ht).2
      simp [FSTree.isFile] at this
      exact this
    have h1 : (((renderDirsTagged ((sortedEntries entries).filter FSTree.isDir) pre).map
        Prod.snd) ++ (sortedEntries entries).filter FSTree.isFile).Perm
          (descendantsL ((sortedEntries entries).filter FSTree.isDir)
            ++ descendantsL ((sortedEntries entries).filter FSTree.isFile)) := by
      rw [hfiles]
      exact (hQ pre).append_right _
    apply h1.trans
    rw [← descendantsL_append]
    have h2 : ((sortedEntries entries).filter FSTree.isDir
        ++ (sortedEntries entries).filter FSTree.isFile).Perm (sortedEntries entries) := by
      exact List.filter_append_perm FSTree.isDir (sortedEntries entries)
    exact (descendantsL_perm h2).trans
      (descendantsL_perm (List.perm_insertionSort nameLe entries))
  · intro pre
    rw [renderDirsTagged_nil]
    exact List.Perm.refl _
  · intro d rest hPd hQrest pre
    rw [renderDirsTagged_cons]
    simp only [List.map_cons, List.map_append]
    have h1 : (d :: ((renderTagged d.children
        (pre ++ (if rest.isEmpty then "    " else "|   "))).map Prod.snd
          ++ (renderDirsTagged rest pre).map Prod.snd)).Perm
        (d :: (descendantsL d.children ++ descendantsL rest)) :=
      ((hPd _).append (hQrest pre)).cons d
    apply h1.trans
    rw [show (d :: (descendantsL d.children ++ descendantsL rest)) =
        ((d :: descendantsL d.children) ++ descendantsL rest) from rfl]
    rw [← FSTree.selfDesc_eq]
    exact List.Perm.refl _

theorem renderFiles_map_pre (l : List FSTree) (pre : String) :
    renderFiles l pre = (renderFiles l "").map (fun s => pre ++ s) := by
  induction l with
  | nil => rfl
  | cons f rest ih =>
    simp only [renderFiles, List.map_cons]
    rw [ih]
    congr 1
    simp [String.append_assoc]

theorem render_map_pre :
    (∀ entries : List FSTree, ∀ pre, print_directory_tree entries pre
      = (print_directory_tree entries "").map (fun s => pre ++ s)) ∧
    (∀ l : List FSTree, ∀ pre, renderDirs l pre
      = (renderDirs l "").map (fun s => pre ++ s)) := by
  refine render_rec
    (fun entries => ∀ pre, print_directory_tree entries pre
      = (print_directory_tree entries "").map (fun s => pre ++ s))
    (fun l => ∀ pre, renderDirs l pre = (renderDirs l "").map (fun s => pre ++ s))
    ?_ ?_ ?_
  · intro entries hQ pre
    rw [print_directory_tree_def, print_directory_tree_def, List.map_append,
      ← hQ pre, ← renderFiles_map_pre]
  · intro pre
    rw [renderDirs_nil, renderDirs_nil]
    rfl
  · intro d rest hPd hQrest pre
    rw [renderDirs_cons, renderDirs_cons]
    simp only [List.map_cons, List.map_append, String.empty_append]
    congr 1
    · simp [String.append_assoc]
    · congr 1
      · rw [hPd (pre ++ (if rest.isEmpty then "    " else "|   ")),
          hPd (if rest.isEmpty then "    " else "|   "), List.map_map]
        apply List.map_congr_left
        intro s _
        simp [Function.comp, String.append_assoc]
      · exact hQrest pre

theorem renderFiles_getElem (l : List FSTree) (pre : String) :
    ∀ i f, l[i]? = some f →
      (renderFiles l pre)[i]? =
        some (pre ++ (if i = l.length - 1 then "`-- " else "|-- ") ++ f.name) := by
  induction l with
  | nil =>
    intro i f h
    simp at h
  | cons a rest ih =>
    intro i f h
    cases i with
    | zero =>
      rw [List.getElem?_cons_zero] at h
      injection h with h'
      subst h'
      cases rest with
      | nil => simp [renderFiles]
      | cons b bs => simp [renderFiles]
    | succ i =>
      rw [List.getElem?_cons_succ] at h
      have hlt : i < rest.length := by
        rcases List.getElem?_eq_some_iff.mp h with ⟨hl, _⟩
        exact hl
      have h2 := ih i f h
      simp only [renderFiles, List.getElem?_cons_succ]
      rw [h2]
      have hcond : (i = rest.length - 1) ↔ (i + 1 = (a :: rest).length - 1) := by
        simp only [List.length_cons]
        omega
      rw [if_congr hcond rfl rfl]

theorem files_pairwise_le (entries : List FSTree) :
    ((sortedEntries entries).filter FSTree.isFile).Pairwise nameLe :=
  List.Pairwise.sublist (List.filter_sublist _)
    (List.sorted_insertionSort nameLe entries)

theorem renderDirs_heading_mem (l : List FSTree) (pre : String) :
    ∀ i d, l[i]? = some d →
      (pre ++ (if i = l.length - 1 then "`-- " else "|-- ") ++ d.name ++ "/")
        ∈ renderDirs l pre := by
  induction l with
  | nil =>
    intro i d h
    simp at h
  | cons a rest ih =>
    intro i d h
    cases i with
    | zero =>
      rw [List.getElem?_cons_zero] at h
      injection h with h'
      subst h'
      rw [renderDirs_cons]
      cases rest with
      | nil => simp
      | cons b bs => simp
    | succ i =>
      rw [List.getElem?_cons_succ] at h
      have hlt : i < rest.length := by
        rcases List.getElem?_eq_some_iff.mp h with ⟨hl, _⟩
        exact hl
      have hmem := ih i d h
      rw [renderDirs_cons]
      have hcond : (i = rest.length - 1) ↔ (i + 1 = (a :: rest).length - 1) := by
        simp only [List.length_cons]
        omega
      rw [← if_congr hcond rfl rfl]
      exact List.mem_cons_of_mem _ (List.mem_append_right _ hmem)

/-- Shape of an instrumented line: some accumulated indentation, one of the
two branch glyphs, then the entry's name — with `/` appended exactly for
directory entries. -/
def taggedLineShape (p : String × FSTree) : Prop :=
  ∃ q g, (g = "`-- " ∨ g = "|-- ") ∧
    ((p.2.isDir = true ∧ p.1 = q ++ g ++ p.2.name ++ "/") ∨
     (p.2.isDir = false ∧ p.1 = q ++ g ++ p.2.name))

theorem renderFilesTagged_shape (l : List FSTree) (pre : String)
    (hl : ∀ t ∈ l, FSTree.isDir t = false) :
    ∀ p ∈ renderFilesTagged l pre, taggedLineShape p := by
  induction l with
  | nil =>
    intro p hp
    simp [renderFilesTagged] at hp
  | cons f rest ih =>
    intro p hp
    simp only [renderFilesTagged, List.mem_cons] at hp
    rcases hp with rfl | hp
    · refine ⟨pre, (if rest.isEmpty then "`-- " else "|-- "), ?_, ?_⟩
      · cases rest with
        | nil => left; rfl
        | cons b bs => right; rfl
      · right
        exact ⟨hl f (List.mem_cons_self f rest), rfl⟩
    · exact ih (fun t ht => hl t (List.mem_cons_of_mem f ht)) p hp

theorem renderTagged_shape :
    (∀ entries : List FSTree, ∀ pre, ∀ p ∈ renderTagged entries pre,
      taggedLineShape p) ∧
    (∀ l : List FSTree, ∀ pre, (∀ t ∈ l, FSTree.isDir t = true) →
      ∀ p ∈ renderDirsTagged l pre, taggedLineShape p) := by
  refine render_rec
    (fun entries => ∀ pre, ∀ p ∈ renderTagged entries pre, taggedLineShape p)
    (fun l => ∀ pre, (∀ t ∈ l, FSTree.isDir t = true) →
      ∀ p ∈ renderDirsTagged l pre, taggedLineShape p)
    ?_ ?_ ?_
  · intro entries hQ pre p hp
    rw [renderTagged_def] at hp
    rcases List.mem_append.mp hp with hp | hp
    · refine hQ pre ?_ p hp
      intro t ht
      exact (List.mem_filter.mp ht).2
    · apply renderFilesTagged_shape _ pre ?_ p hp
      intro t ht
      have h2 := (List.mem_filter.mp ht).2
      simp only [FSTree.isFile, Bool.not_eq_true'] at h2
      exact h2
  · intro pre _ p hp
    rw [renderDirsTagged_nil] at hp
    simp at hp
  · intro d rest hPd hQrest pre halldir p hp
    rw [renderDirsTagged_cons] at hp
    rcases List.mem_cons.mp hp with rfl | hp
    · refine ⟨pre, (if rest.isEmpty then "`-- " else "|-- "), ?_, ?_⟩
      · cases rest with
        | nil => left; rfl
        | cons b bs => right; rfl
      · left
        exact ⟨halldir d (List.mem_cons_self d rest), rfl⟩
    · rcases List.mem_append.mp hp with hp | hp
      · exact hPd _ p hp
      · exact hQrest pre (fun t ht => halldir t (List.mem_cons_of_mem d ht)) p hp

/-- A filesystem entry together with readability information: a directory
with `readable = false` models one whose `os.listdir` raises
`PermissionError`. -/
inductive FSNode where
  | file (name : String)
  | dir (name : String) (readable : Bool) (children : List FSNode)

def FSNode.name : FSNode → String
  | .file n => n
  | .dir n _ _ => n

def FSNode.isDir : FSNode → Bool
  | .file _ => false
  | .dir _ _ _ => true

def FSNode.isFile (t : FSNode) : Bool := !t.isDir

/-- Ordering of entries by name for the readability-aware model. -/
def nodeLe (a b : FSNode) : Prop := String.le a.name b.name

instance : DecidableRel nodeLe := fun a b => String.decLE a.name b.name

/-- Sorting of a listing in the readability-aware model. -/
def sortedNodes (entries : List FSNode) : List FSNode :=
  List.insertionSort nodeLe entries

mutual

def FSNode.size : FSNode → Nat
  | .file _ => 1
  | .dir _ _ cs => 1 + FSNode.sizeList cs

def FSNode.sizeList : List FSNode → Nat
  | [] => 0
  | t :: ts => t.size + FSNode.sizeList ts

end

theorem FSNode.node_size_pos (t : FSNode) : 0 < t.size := by
  cases t <;> simp [FSNode.size]

theorem FSNode.node_sizeList_perm {l l' : List FSNode} (h : l.Perm l') :
    FSNode.sizeList l = FSNode.sizeList l' := by
  induction h with
  | nil => rfl
  | cons x _ ih => simp [FSNode.sizeList, ih]
  | swap x y l => simp [FSNode.sizeList]; omega
  | trans _ _ ih1 ih2 => omega

theorem FSNode.node_sizeList_le_of_sublist {l l' : List FSNode} (h : l.Sublist l') :
    FSNode.sizeList l ≤ FSNode.sizeList l' := by
  induction h with
  | slnil => exact Nat.le_refl _
  | cons a _ ih => simp only [FSNode.sizeList]; omega
  | cons₂ a _ ih => simp only [FSNode.sizeList]; omega

theorem FSNode.node_dec_dirs (n : String) (r : Bool) (cs : List FSNode) :
    2 * FSNode.sizeList ((sortedNodes cs).filter FSNode.isDir) + 1 <
      2 * FSNode.size (FSNode.dir n r cs) := by
  have h1 : FSNode.sizeList ((sortedNodes cs).filter FSNode.isDir) ≤
      FSNode.sizeList (sortedNodes cs) :=
    FSNode.node_sizeList_le_of_sublist (List.filter_sublist _)
  have h2 : FSNode.sizeList (sortedNodes cs) = FSNode.sizeList cs :=
    FSNode.node_sizeList_perm (List.perm_insertionSort nodeLe cs)
  simp only [FSNode.size]
  omega

theorem FSNode.node_dec_child (d : FSNode) (rest : List FSNode) :
    2 * FSNode.size d < 2 * FSNode.sizeList (d :: rest) + 1 := by
  simp only [FSNode.sizeList]
  omega

theorem FSNode.node_dec_rest (d : FSNode) (rest : List FSNode) :
    2 * FSNode.sizeList rest + 1 < 2 * FSNode.sizeList (d :: rest) + 1 := by
  have h1 := FSNode.node_size_pos d
  simp only [FSNode.sizeList]
  omega

/-- Rendering of the file lines in the readability-aware model: files are
never listed, so this loop cannot fail. -/
def renderFilesN : List FSNode → String → List String
  | [], _ => []
  | f :: rest, pre =>
    (pre ++ (if rest.isEmpty then "`-- " else "|-- ") ++ f.name) :: renderFilesN rest pre

mutual

/-- Embedding of `print_directory_tree(directory, prefix)` over a
readability-aware snapshot.  `os.listdir(directory)` raises when `directory`
is unreadable (or not a directory); the function has no handler, so the
exception propagates, modelled by `Except.error`. -/
def print_directory_treeE (d : FSNode) (pre : String) : Except String (List String) :=
  match d with
  | .file n => .error ("NotADirectoryError: " ++ n)
  | .dir n false _ => .error ("PermissionError: " ++ n)
  | .dir _ true cs =>
    match renderDirsE ((sortedNodes cs).filter FSNode.isDir) pre with
    | .error e => .error e
    | .ok dirLines =>
      .ok (dirLines ++ renderFilesN ((sortedNodes cs).filter FSNode.isFile) pre)
termination_by 2 * FSNode.size d
decreasing_by
  apply FSNode.node_dec_dirs

/-- The subdirectory loop in the readability-aware model: any error from a
recursive call is propagated unchanged (the Python loop body has no
try/except). -/
def renderDirsE : List FSNode → String → Except String (List String)
  | [], _ => .ok []
  | d :: rest, pre =>
    match print_directory_treeE d (pre ++ (if rest.isEmpty then "    " else "|   ")) with
    | .error e => .error e
    | .ok sub =>
      match renderDirsE rest pre with
      | .error e => .error e
      | .ok others =>
        .ok ((pre ++ (if rest.isEmpty then "`-- " else "|-- ") ++ d.name ++ "/")
          :: (sub ++ others))
termination_by l _ => 2 * FSNode.sizeList l + 1
decreasing_by
  · apply FSNode.node_dec_child
  · apply FSNode.node_dec_rest

end

mutual

/-- Whether a tree contains any unreadable directory. -/
def FSNode.hasUnreadable : FSNode → Bool
  | .file _ => false
  | .dir _ r cs => !r || FSNode.hasUnreadableL cs

/-- Whether a listing contains any entry with an unreadable directory. -/
def FSNode.hasUnreadableL : List FSNode → Bool
  | [] => false
  | t :: ts => t.hasUnreadable || FSNode.hasUnreadableL ts

end

theorem FSNode.hasUnreadableL_exists {l : List FSNode}
    (h : FSNode.hasUnreadableL l = true) :
    ∃ t ∈ l, FSNode.hasUnreadable t = true := by
  induction l with
  | nil => simp [FSNode.hasUnreadableL] at h
  | cons t ts ih =>
    simp only [FSNode.hasUnreadableL, Bool.or_eq_true] at h
    rcases h with h | h
    · exact ⟨t, List.mem_cons_self t ts, h⟩
    · rcases ih h with ⟨u, hu, hu2⟩
      exact ⟨u, List.mem_cons_of_mem t hu, hu2⟩

theorem FSNode.isDir_of_hasUnreadable {t : FSNode}
    (h : FSNode.hasUnreadable t = true) : FSNode.isDir t = true := by
  cases t with
  | file n => simp [FSNode.hasUnreadable] at h
  | dir n r cs => rfl

theorem FSNode.size_le_of_mem {t : FSNode} {l : List FSNode} (h : t ∈ l) :
    FSNode.size t ≤ FSNode.sizeList l := by
  induction l with
  | nil => simp at h
  | cons a ts ih =>
    rcases List.mem_cons.mp h with rfl | h
    · simp only [FSNode.sizeList]; omega
    · have := ih h
      simp only [FSNode.sizeList]
      omega

theorem renderDirsE_error (l : List FSNode) (pre : String)
    (h : ∃ t ∈ l, ∀ p, ∃ e, print_directory_treeE t p = Except.error e) :
    ∃ e, renderDirsE l pre = Except.error e := by
  induction l generalizing pre with
  | nil =>
    rcases h with ⟨t, ht, _⟩
    simp at ht
  | cons d rest ih =>
    rcases h with ⟨t, ht, herr⟩
    rcases List.mem_cons.mp ht with rfl | ht'
    · rcases herr (pre ++ (if rest.isEmpty then "    " else "|   ")) with ⟨e, he⟩
      refine ⟨e, ?_⟩
      rw [renderDirsE, he]
    · rcases ih pre ⟨t, ht', herr⟩ with ⟨e, he⟩
      cases hfst : print_directory_treeE d (pre ++ (if rest.isEmpty then "    " else "|   ")) with
      | error e' =>
        refine ⟨e', ?_⟩
        rw [renderDirsE, hfst]
      | ok sub =>
        refine ⟨e, ?_⟩
        rw [renderDirsE, hfst, he]

theorem unreadable_propagates :
    ∀ d : FSNode, FSNode.hasUnreadable d = true →
      ∀ pre, ∃ e, print_directory_treeE d pre = Except.error e := by
  have key : ∀ n : Nat, ∀ d : FSNode, FSNode.size d ≤ n →
      FSNode.hasUnreadable d = true →
      ∀ pre, ∃ e, print_directory_treeE d pre = Except.error e := by
    intro n
    induction n with
    | zero =>
      intro d hle
      have := FSNode.node_size_pos d
      omega
    | succ n ih =>
      intro d hle hunread pre
      cases d with
      | file nm => simp [FSNode.hasUnreadable] at hunread
      | dir nm r cs =>
        cases r with
        | false =>
          exact ⟨"PermissionError: " ++ nm, by rw [print_directory_treeE]⟩
        | true =>
          simp only [FSNode.hasUnreadable, Bool.not_true, Bool.false_or] at hunread
          rcases FSNode.hasUnreadableL_exists hunread with ⟨t, htmem, ht⟩
          have htdir := FSNode.isDir_of_hasUnreadable ht
          have htmem2 : t ∈ (sortedNodes cs).filter FSNode.isDir :=
            List.mem_filter.mpr ⟨(List.mem_insertionSort nodeLe).mpr htmem, htdir⟩
          have hts : FSNode.size t ≤ n := by
            have h1 := FSNode.size_le_of_mem htmem
            simp only [FSNode.size] at hle
            omega
          have herr : ∀ p, ∃ e, print_directory_treeE t p = Except.error e :=
            ih t hts ht
          rcases renderDirsE_error ((sortedNodes cs).filter FSNode.isDir) pre
            ⟨t, htmem2, herr⟩ with ⟨e, he⟩
          refine ⟨e, ?_⟩
          rw [print_directory_treeE, he]
  intro d h pre
  exact key (FSNode.size d) d (Nat.le_refl _) h pre

/-- The subdirectory loop of the depth-bounded renderer, parametrised by the
recursive call available at the current recursion budget. -/
def renderDirsGo (recur : List FSTree → String → Option (List String)) :
    List FSTree → String → Option (List String)
  | [], _ => some []
  | d :: rest, pre =>
    match recur d.children (pre ++ (if rest.isEmpty then "    " else "|   ")) with
    | none => none
    | some sub =>
      match renderDirsGo recur rest pre with
      | none => none
      | some others =>
        some ((pre ++ (if rest.isEmpty then "`-- " else "|-- ") ++ d.name ++ "/")
          :: (sub ++ others))

/-- Depth-bounded version of `print_directory_tree`: each nested call of the
Python function consumes one unit of recursion budget (one stack frame), and
exhausting the budget models a recursion-depth failure (`none`). -/
def renderFuel : Nat → List FSTree → String → Option (List String)
  | 0, _, _ => none
  | fuel + 1, entries, pre =>
    match renderDirsGo (renderFuel fuel) ((sortedEntries entries).filter FSTree.isDir) pre with
    | none => none
    | some dirLines =>
      some (dirLines ++ renderFiles ((sortedEntries entries).filter FSTree.isFile) pre)

mutual

/-- Recursion depth needed to render one entry. -/
def FSTree.depthT : FSTree → Nat
  | .file _ => 0
  | .dir _ cs => 1 + FSTree.depthList cs

/-- Recursion depth needed below a directory with listing `l` (0 when no
subdirectory is present). -/
def FSTree.depthList : List FSTree → Nat
  | [] => 0
  | t :: ts => max t.depthT (FSTree.depthList ts)

end

theorem FSTree.depthT_le_of_mem {t : FSTree} {l : List FSTree} (h : t ∈ l) :
    FSTree.depthT t ≤ FSTree.depthList l := by
  induction l with
  | nil => simp at h
  | cons a ts ih =>
    rcases List.mem_cons.mp h with rfl | h
    · simp only [FSTree.depthList]
      exact Nat.le_max_left _ _
    · have := ih h
      simp only [FSTree.depthList]
      omega

theorem FSTree.depthT_of_isDir {d : FSTree} (h : FSTree.isDir d = true) :
    FSTree.depthT d = 1 + FSTree.depthList d.children := by
  cases d with
  | file n => simp [FSTree.isDir] at h
  | dir n cs => rfl

theorem renderDirsGo_eq (recur : List FSTree → String → Option (List String))
    (l : List FSTree) (pre : String)
    (h : ∀ d ∈ l, ∀ p, recur d.children p = some (print_directory_tree d.children p)) :
    renderDirsGo recur l pre = some (renderDirs l pre) := by
  induction l generalizing pre with
  | nil => rw [renderDirs_nil]; rfl
  | cons d rest ih =>
    have hd := h d (List.mem_cons_self d rest) (pre ++ (if rest.isEmpty then "    " else "|   "))
    have hrest := ih pre (fun u hu => h u (List.mem_cons_of_mem d hu))
    rw [renderDirs_cons]
    simp only [renderDirsGo, hd, hrest]

theorem renderFuel_complete :
    ∀ (fuel : Nat) (entries : List FSTree) (pre : String),
      FSTree.depthList entries < fuel →
      renderFuel fuel entries pre = some (print_directory_tree entries pre) := by
  intro fuel
  induction fuel with
  | zero =>
    intro entries pre h
    omega
  | succ fuel ih =>
    intro entries pre h
    have hgo : renderDirsGo (renderFuel fuel)
        ((sortedEntries entries).filter FSTree.isDir) pre =
        some (renderDirs ((sortedEntries entries).filter FSTree.isDir) pre) := by
      apply renderDirsGo_eq
      intro d hd p
      have hdir := (List.mem_filter.mp hd).2
      have hmem : d ∈ entries :=
        (List.mem_insertionSort nameLe).mp (List.mem_filter.mp hd).1
      have h1 : FSTree.depthT d ≤ FSTree.depthList entries :=
        FSTree.depthT_le_of_mem hmem
      rw [FSTree.depthT_of_isDir hdir] at h1
      exact ih d.children p (by omega)
    rw [print_directory_tree_def]
    simp only [renderFuel, hgo]

/-- Content written by `save_to_text_file(lines, filepath)` (pps.py line 43):
`f.write("\n".join(lines))`, with a Python string modelled as its list of
characters.  `joinNl` places one newline between consecutive lines, exactly
as `str.join`. -/
def joinNl : List (List Char) → List Char
  | [] => []
  | [l] => l
  | l :: ls => l ++ '\n' :: joinNl ls

/-- Full content that `save_to_text_file` writes for `lines`. -/
def save_to_text_file (lines : List (List Char)) : List Char :=
  joinNl lines

/-- Splitting text on newline with Python `str.split("\n")` semantics: the
empty text yields `[""]`, and each newline character separates two (possibly
empty) fields. -/
def splitNl : List Char → List (List Char)
  | [] => [[]]
  | c :: cs =>
    if c = '\n' then [] :: splitNl cs
    else
      match splitNl cs with
      | [] => [[c]]
      | x :: xs => (c :: x) :: xs

theorem splitNl_no_newline (l : List Char) (h : '\n' ∉ l) : splitNl l = [l] := by
  induction l with
  | nil => rfl
  | cons c cs ih =>
    have hc : ¬ c = '\n' := fun e => h (e ▸ List.mem_cons_self c cs)
    have hcs : '\n' ∉ cs := fun e => h (List.mem_cons_of_mem c e)
    simp only [splitNl, if_neg hc, ih hcs]

theorem splitNl_append_newline (x rest : List Char) (h : '\n' ∉ x) :
    splitNl (x ++ '\n' :: rest) = x :: splitNl rest := by
  induction x with
  | nil => simp [splitNl]
  | cons c cs ih =>
    have hc : ¬ c = '\n' := fun e => h (e ▸ List.mem_cons_self c cs)
    have hcs : '\n' ∉ cs := fun e => h (List.mem_cons_of_mem c e)
    simp only [List.cons_append, splitNl, if_neg hc, List.append_eq, ih hcs]

/-- C1: for every directory, the rendered output is exactly the concatenation
of all subdirectory blocks (sorted subdirectories, each heading line followed
by its recursively rendered descendant lines) followed by all file lines of
that directory; in particular, for a directory containing the file `f.txt`
and the subdirectory `sub`, the subdirectory block precedes the file line even
though `f.txt` sorts before `sub`. -/
theorem subdir_blocks_precede_file_lines :
    (∀ (entries : List FSTree) (pre : String),
      print_directory_tree entries pre =
        renderDirs ((sortedEntries entries).filter FSTree.isDir) pre
          ++ renderFiles ((sortedEntries entries).filter FSTree.isFile) pre) ∧
    print_directory_tree [FSTree.file "f.txt", FSTree.dir "sub" []] "" =
      ["`-- sub/", "`-- f.txt"] := by
  constructor
  · exact print_directory_tree_def
  · simp [print_directory_tree, renderDirs, renderFiles, sortedEntries, nameLe,
      FSTree.isDir, FSTree.isFile, FSTree.name, FSTree.children]

/-- C2: the files of a directory are rendered in codepoint-lexicographic
order of their names, the i-th file line carrying glyph `|-- ` except the
last file, which carries the backtick glyph; a directory with only `b.txt`
and `a.txt` renders as `a.txt` then `b.txt` with the backtick glyph only on
the final entry. -/
theorem file_lines_sorted_with_glyphs :
    (∀ entries : List FSTree,
      ((sortedEntries entries).filter FSTree.isFile).Pairwise nameLe) ∧
    (∀ (l : List FSTree) (pre : String) (i : Nat) (f : FSTree), l[i]? = some f →
      (renderFiles l pre)[i]? =
        some (pre ++ (if i = l.length - 1 then "`-- " else "|-- ") ++ f.name)) ∧
    print_directory_tree [FSTree.file "b.txt", FSTree.file "a.txt"] "" =
      ["|-- a.txt", "`-- b.txt"] := by
  refine ⟨files_pairwise_le, ?_, ?_⟩
  · intro l pre i f h
    exact renderFiles_getElem l pre i f h
  · simp [print_directory_tree, renderDirs, renderFiles, sortedEntries, nameLe,
      FSTree.isDir, FSTree.isFile, FSTree.name, FSTree.children]

theorem file_lines_sorted_with_glyphs_witness :
    (([FSTree.file "a.txt", FSTree.file "b.txt"] : List FSTree)[0]? =
      some (FSTree.file "a.txt")) ∧
    (renderFiles [FSTree.file "a.txt", FSTree.file "b.txt"] "")[0]? =
      some ("" ++ (if 0 = ([FSTree.file "a.txt", FSTree.file "b.txt"] : List FSTree).length - 1
        then "`-- " else "|-- ") ++ (FSTree.file "a.txt").name) :=
  ⟨rfl, file_lines_sorted_with_glyphs.2.1 _ "" 0 _ rfl⟩

/-- C3: the glyph of the i-th subdirectory heading of a level is determined
only by i and the number of subdirectories at that level (backtick glyph
exactly for the last subdirectory), independently of the files there; the
last subdirectory keeps the backtick glyph even when file lines follow at the
same level, and a non-last subdirectory keeps `|-- `. -/
theorem subdir_glyph_depends_only_on_index :
    (∀ (entries : List FSTree) (pre : String) (i : Nat) (d : FSTree),
      ((sortedEntries entries).filter FSTree.isDir)[i]? = some d →
      (pre ++ (if i = ((sortedEntries entries).filter FSTree.isDir).length - 1
          then "`-- " else "|-- ") ++ d.name ++ "/")
        ∈ print_directory_tree entries pre) ∧
    print_directory_tree [FSTree.dir "sub" [], FSTree.file "z.txt"] "" =
      ["`-- sub/", "`-- z.txt"] ∧
    print_directory_tree [FSTree.dir "a" [], FSTree.dir "b" [], FSTree.file "z.txt"] "" =
      ["|-- a/", "`-- b/", "`-- z.txt"] := by
  refine ⟨?_, ?_, ?_⟩
  · intro entries pre i d h
    rw [print_directory_tree_def]
    exact List.mem_append_left _ (renderDirs_heading_mem _ pre i d h)
  · simp [print_directory_tree, renderDirs, renderFiles, sortedEntries, nameLe,
      FSTree.isDir, FSTree.isFile, FSTree.name, FSTree.children]
  · simp [print_directory_tree, renderDirs, renderFiles, sortedEntries, nameLe,
      FSTree.isDir, FSTree.isFile, FSTree.name, FSTree.children]

theorem subdir_glyph_depends_only_on_index_witness :
    ((sortedEntries [FSTree.dir "sub" [], FSTree.file "z.txt"]).filter FSTree.isDir)[0]? =
      some (FSTree.dir "sub" []) ∧
    (("" ++ (if 0 = ((sortedEntries [FSTree.dir "sub" [], FSTree.file "z.txt"]).filter
          FSTree.isDir).length - 1 then "`-- " else "|-- ")
        ++ (FSTree.dir "sub" []).name ++ "/")
      ∈ print_directory_tree [FSTree.dir "sub" [], FSTree.file "z.txt"] "") :=
  ⟨rfl, subdir_glyph_depends_only_on_index.1 _ "" 0 _ rfl⟩

/-- C4: recursing into a subdirectory extends the prefix by four spaces when
that subdirectory is the last subdirectory of its level and by a pipe plus
three spaces otherwise; every rendered line of a level is the level's prefix
prepended to a prefix-free rendering, so a file N directories deep carries
exactly the N four-character segments of its ancestors; a doubly nested file
carries two space segments when both ancestors are last. -/
theorem child_prefix_extension :
    (∀ (d : FSTree) (rest : List FSTree) (pre : String),
      renderDirs (d :: rest) pre =
        (pre ++ (if rest.isEmpty then "`-- " else "|-- ") ++ d.name ++ "/")
          :: (print_directory_tree d.children
                (pre ++ (if rest.isEmpty then "    " else "|   "))
            ++ renderDirs rest pre)) ∧
    (∀ (entries : List FSTree) (pre : String),
      print_directory_tree entries pre
        = (print_directory_tree entries "").map (fun s => pre ++ s)) ∧
    print_directory_tree [FSTree.dir "a" [FSTree.dir "b" [FSTree.file "f"]]] "" =
      ["`-- a/", "    `-- b/", "        `-- f"] := by
  refine ⟨renderDirs_cons, render_map_pre.1, ?_⟩
  simp [print_directory_tree, renderDirs, renderFiles, sortedEntries, nameLe,
    FSTree.isDir, FSTree.isFile, FSTree.name, FSTree.children]

/-- C5: the rendered lines are the instrumented lines, and every instrumented
line consists of accumulated indentation, a branch glyph and the entry's
name, with a trailing `/` appended exactly when the entry is a directory and
nothing appended when it is a file. -/
theorem dir_lines_slash_file_lines_plain :
    (∀ (entries : List FSTree) (pre : String),
      (renderTagged entries pre).map Prod.fst = print_directory_tree entries pre) ∧
    (∀ (entries : List FSTree) (pre : String), ∀ p ∈ renderTagged entries pre,
      taggedLineShape p) :=
  ⟨renderTagged_fst.1, renderTagged_shape.1⟩

theorem dir_lines_slash_file_lines_plain_witness :
    (("`-- sub/", FSTree.dir "sub" []) ∈ renderTagged [FSTree.dir "sub" []] "") ∧
    taggedLineShape ("`-- sub/", FSTree.dir "sub" []) := by
  have h1 : ("`-- sub/", FSTree.dir "sub" []) ∈ renderTagged [FSTree.dir "sub" []] "" := by
    simp [renderTagged_def, renderDirsTagged_cons, renderDirsTagged_nil,
      renderFilesTagged, sortedEntries, nameLe, FSTree.isDir, FSTree.isFile,
      FSTree.name, FSTree.children]
  exact ⟨h1, dir_lines_slash_file_lines_plain.2 _ "" _ h1⟩

/-- C6: the entries tagged onto the rendered lines of a directory are a
permutation of its direct and transitive children, so the lines are in
one-to-one correspondence with those children; in particular the number of
rendered lines equals the number of such children. -/
theorem lines_correspond_to_descendants :
    (∀ (entries : List FSTree) (pre : String),
      ((renderTagged entries pre).map Prod.snd).Perm (descendantsL entries)) ∧
    (∀ (entries : List FSTree) (pre : String),
      (print_directory_tree entries pre).length = (descendantsL entries).length) := by
  refine ⟨renderTagged_snd_perm.1, ?_⟩
  intro entries pre
  have h1 := (renderTagged_snd_perm.1 entries pre).length_eq
  rw [List.length_map] at h1
  rw [← renderTagged_fst.1 entries pre, List.length_map]
  exact h1

/-- C7: a directory whose listing is empty renders to the empty sequence of
lines, for any prefix. -/
theorem empty_listing_renders_empty :
    ∀ pre : String, print_directory_tree [] pre = [] := by
  intro pre
  rw [print_directory_tree_def]
  show renderDirs [] pre ++ renderFiles [] pre = []
  rw [renderDirs_nil]
  rfl

/-- C8: if the traversal reaches any unreadable directory (its listing
raises), the whole render fails with that error propagating to the caller and
produces no line sequence; nothing is skipped. -/
theorem unreadable_dir_aborts :
    ∀ (d : FSNode) (pre : String), FSNode.hasUnreadable d = true →
      ∃ e, print_directory_treeE d pre = Except.error e :=
  fun d pre h => unreadable_propagates d h pre

theorem unreadable_dir_aborts_witness :
    FSNode.hasUnreadable
      (FSNode.dir "root" true [FSNode.dir "secret" false [], FSNode.file "a.txt"]) = true ∧
    ∃ e, print_directory_treeE
      (FSNode.dir "root" true [FSNode.dir "secret" false [], FSNode.file "a.txt"]) ""
        = Except.error e :=
  ⟨by decide, unreadable_dir_aborts _ "" (by decide)⟩

/-- C9 counterexample: splitting the text written for the empty line sequence
does not reproduce the empty sequence — the written text is empty and
splitting the empty text by newline yields one empty line, as in Python. -/
theorem roundtrip_fails_on_empty :
    ¬ (splitNl (save_to_text_file []) = ([] : List (List Char))) := by
  decide

/-- C9 (amended): for every nonempty sequence of lines none of which contains
a newline character, the text written by `save_to_text_file`, split by
newline, reproduces exactly the original sequence. -/
theorem roundtrip_amended :
    ∀ lines : List (List Char), lines ≠ [] → (∀ l ∈ lines, '\n' ∉ l) →
      splitNl (save_to_text_file lines) = lines := by
  intro lines
  induction lines with
  | nil =>
    intro h _
    exact absurd rfl h
  | cons x ls ih =>
    intro _ hnl
    cases ls with
    | nil =>
      show splitNl (joinNl [x]) = [x]
      rw [show joinNl [x] = x from rfl]
      exact splitNl_no_newline x (hnl x (List.mem_cons_self x []))
    | cons y ys =>
      show splitNl (joinNl (x :: y :: ys)) = x :: y :: ys
      rw [show joinNl (x :: y :: ys) = x ++ '\n' :: joinNl (y :: ys) from rfl]
      rw [splitNl_append_newline _ _ (hnl x (List.mem_cons_self x (y :: ys)))]
      have h2 := ih (by simp) (fun l hl => hnl l (List.mem_cons_of_mem x hl))
      rw [show save_to_text_file (y :: ys) = joinNl (y :: ys) from rfl] at h2
      rw [h2]

theorem roundtrip_amended_witness :
    (([['a'], ['b']] : List (List Char)) ≠ [] ∧
      (∀ l ∈ ([['a'], ['b']] : List (List Char)), '\n' ∉ l)) ∧
    splitNl (save_to_text_file [['a'], ['b']]) = [['a'], ['b']] :=
  ⟨⟨by decide, by decide⟩, roundtrip_amended _ (by decide) (by decide)⟩

/-- C10: on any finite tree the renderer terminates: whenever the recursion
budget exceeds the tree's nesting depth, the depth-bounded renderer completes
without exhausting the budget and returns exactly the total rendering — there
is no depth limit inherent in the algorithm. -/
theorem render_terminates_at_any_depth :
    ∀ (entries : List FSTree) (pre : String) (fuel : Nat),
      FSTree.depthList entries < fuel →
      renderFuel fuel entries pre = some (print_directory_tree entries pre) :=
  fun entries pre fuel h => renderFuel_complete fuel entries pre h

theorem render_terminates_at_any_depth_witness :
    FSTree.depthList [FSTree.dir "a" [FSTree.file "x"]] < 2 ∧
    renderFuel 2 [FSTree.dir "a" [FSTree.file "x"]] "" =
      some (print_directory_tree [FSTree.dir "a" [FSTree.file "x"]] "") :=
  ⟨by decide, render_terminates_at_any_depth _ "" 2 (by decide)⟩

end Pps
